import Mathlib

/-!
Shallow embedding of the definition-collection / module-resolution core of
the `nyanc_analyzer` crate (`src/resolver.rs`, `src/db.rs`), together with
proofs of the specification claims about it.

The resolver walks the import graph of a program breadth-first from an
entry file, collects every top-level function / struct declaration into a
`DefMap` keyed by sequentially allocated `DefId`s, and uses an abstract
database (`AnalyzerDb`) to fetch ASTs, resolve import paths and intern
identifier text.
-/

namespace Nyanc

/-- Opaque identifier for a source file (`nyanc_core::FileId`); supplied
externally, modelled as a natural number. -/
abbrev FileId := Nat

/-- Opaque identifier for an interned string (`nyanc_core::Symbol`, a `u32`
newtype); modelled as a natural number. -/
abbrev Symbol := Nat

/-- Opaque identifier for a top-level declaration (`hir::DefId`, a `u32`
newtype); modelled as a natural number.  The allocator below keeps its
values below `2 ^ 32`. -/
abbrev DefId := Nat

/-- Modelled from the spec: the `ast` crate is an external collaborator, not
part of this repository's sources.  A token carries the text (`lexeme`) of an
identifier; only the `lexeme` field is ever read by the resolver. -/
structure Token where
  lexeme : String
deriving DecidableEq, Repr

/-- Modelled from the spec: an import path — a sequence of identifier
segments.  The resolver passes paths opaquely to `resolve_module`. -/
structure ModPath where
  segments : List Token
deriving DecidableEq, Repr

/-- Modelled from the spec: the (possibly nested) shape of names inside
one import declaration — a simple path, a group of sub-specifications, or
a wildcard (`ast::UseTree`). -/
inductive UseTree where
  | simple (path : ModPath)
  | group (items : List UseTree)
  | wildcard

/-- Modelled from the spec: an import declaration carrying its import-tree
(`ast::UseStmt`).  Only the `tree` field is read by the resolver. -/
structure UseStmt where
  tree : UseTree

/-- Modelled from the spec: a top-level function declaration
(`ast::FunctionDef`); the resolver only reads its name token. -/
structure FunctionDef where
  name : Token
deriving DecidableEq, Repr

/-- Modelled from the spec: a top-level struct declaration
(`ast::StructDef`); the resolver only reads its name token. -/
structure StructDef where
  name : Token
deriving DecidableEq, Repr

/-- Modelled from the spec: a top-level item of a module (`ast::Item`):
a function declaration, a struct declaration, or an import declaration. -/
inductive Item where
  | function (func_def : FunctionDef)
  | struct_ (struct_def : StructDef)
  | use_ (use_stmt : UseStmt)

/-- Modelled from the spec: a parsed module — the list of its top-level
items (`ast::Module`). -/
structure Module where
  items : List Item

/-- The query boundary (`trait AnalyzerDb`, `src/db.rs`): fetch the parsed
AST of a file, resolve an import path relative to an anchor file, intern an
identifier string. -/
structure AnalyzerDb where
  ast : FileId → Module
  resolve_module : FileId → ModPath → Option FileId
  intern_string : String → Symbol

/-- The kind tag of a top-level item (`resolver.rs`, `enum ItemKind`). -/
inductive ItemKind where
  | function
  | struct_
deriving DecidableEq, Repr

/-- One registry record per top-level declaration (`resolver.rs`,
`struct ItemDef`).  `ast_node` stores the declaration item by value
(the source stores `Arc::new(item.clone())`). -/
structure ItemDef where
  def_id : DefId
  name : Symbol
  kind : ItemKind
  ast_node : Item

/-- `std::collections::HashMap::insert` on an association list: overwrite
the value when the key is already present, otherwise add the binding. -/
def hashInsert (m : List (DefId × ItemDef)) (k : DefId) (v : ItemDef) :
    List (DefId × ItemDef) :=
  if k ∈ m.map Prod.fst then
    m.map fun p => if p.1 = k then (k, v) else p
  else m ++ [(k, v)]

/-- The definition registry (`resolver.rs`, `struct DefMap`): a map from
`DefId` to `ItemDef`, modelled as an association list. -/
structure DefMap where
  items : List (DefId × ItemDef)

/-- `DefMap::new` — the empty registry. -/
def DefMap.new : DefMap := ⟨[]⟩

/-- The `DefId` allocator (`resolver.rs`, `struct DefIdAllocator`).  The
source counter is a `u32`; we model it as a natural number kept below
`2 ^ 32`, with the increment wrapping as `u32` addition does. -/
structure DefIdAllocator where
  counter : Nat
deriving DecidableEq, Repr

/-- `DefIdAllocator::new` — counter starts at zero. -/
def DefIdAllocator.new : DefIdAllocator := ⟨0⟩

/-- `DefIdAllocator::new_def_id`: return the current counter as the fresh
`DefId` and increment the counter (as a `u32`, hence the wrap at `2 ^ 32`). -/
def DefIdAllocator.new_def_id (a : DefIdAllocator) : DefId × DefIdAllocator :=
  (a.counter, ⟨(a.counter + 1) % 2 ^ 32⟩)

/-- The mutable state of the `Resolver` (`resolver.rs`): the allocator and
the definition map under construction.  The database reference is passed
separately to each function. -/
structure Resolver where
  id_allocator : DefIdAllocator
  def_map : DefMap

/-- `Resolver::new`: fresh allocator, empty map. -/
def Resolver.new : Resolver := ⟨DefIdAllocator.new, DefMap.new⟩

/-- One iteration of the item loop in `Resolver::collect_defs_in_module`:
a function or struct declaration allocates a fresh `DefId`, interns the
declared name and inserts an `ItemDef`; a use declaration is skipped. -/
def collectItem (db : AnalyzerDb) (r : Resolver) (item : Item) : Resolver :=
  match item with
  | .function func_def =>
    let p := r.id_allocator.new_def_id
    let name_symbol := db.intern_string func_def.name.lexeme
    ⟨p.2, ⟨hashInsert r.def_map.items p.1
      ⟨p.1, name_symbol, ItemKind.function, item⟩⟩⟩
  | .struct_ struct_def =>
    let p := r.id_allocator.new_def_id
    let name_symbol := db.intern_string struct_def.name.lexeme
    ⟨p.2, ⟨hashInsert r.def_map.items p.1
      ⟨p.1, name_symbol, ItemKind.struct_, item⟩⟩⟩
  | .use_ _ => r

/-- `Resolver::collect_defs_in_module`: scan the items of one module in
source order, adding definitions to the map. -/
def collect_defs_in_module (db : AnalyzerDb) (r : Resolver) (module_ast : Module) :
    Resolver :=
  module_ast.items.foldl (collectItem db) r

mutual

/-- `Resolver::discover_deps_in_tree`: walk a use-tree, resolving every
simple path relative to `anchor_file` and pushing each successfully
resolved file onto the back of the worklist; groups recurse member by
member; wildcards are skipped. -/
def discover_deps_in_tree (db : AnalyzerDb) (anchor_file : FileId) :
    UseTree → List FileId → List FileId
  | .simple path, worklist =>
    match db.resolve_module anchor_file path with
    | some resolved_file_id => worklist ++ [resolved_file_id]
    | none => worklist
  | .group items, worklist => discover_deps_in_list db anchor_file items worklist
  | .wildcard, worklist => worklist

/-- The `for item in items { recurse }` loop over a group's members in
`discover_deps_in_tree`. -/
def discover_deps_in_list (db : AnalyzerDb) (anchor_file : FileId) :
    List UseTree → List FileId → List FileId
  | [], worklist => worklist
  | t :: ts, worklist =>
    discover_deps_in_list db anchor_file ts
      (discover_deps_in_tree db anchor_file t worklist)

end

/-- The transient state of one `collect_defs_crate` run: the resolver under
construction, the FIFO worklist and the visited set (`HashSet<FileId>`,
modelled as a duplicate-free list in insertion order). -/
structure CrateState where
  resolver : Resolver
  worklist : List FileId
  visited : List FileId

/-- The body of the use-statement scan in `collect_defs_crate`: an import
declaration's tree is walked against the worklist, any other item leaves
the worklist unchanged. -/
def depsStep (db : AnalyzerDb) (f : FileId) (wl : List FileId) : Item → List FileId
  | .use_ use_stmt => discover_deps_in_tree db f use_stmt.tree wl
  | _ => wl

/-- One iteration of the `while let Some(file_id) = worklist.pop_front()`
loop in `Resolver::collect_defs_crate`, after the dequeue: an
already-visited file is skipped; otherwise it is marked visited, its AST is
fetched and scanned for definitions, and every use-statement's tree is
walked to push newly discovered dependencies onto the worklist. -/
def crateStep (db : AnalyzerDb) (s : CrateState) (file_id : FileId)
    (rest : List FileId) : CrateState :=
  if file_id ∈ s.visited then
    ⟨s.resolver, rest, s.visited⟩
  else
    let astm := db.ast file_id
    let r := collect_defs_in_module db s.resolver astm
    let wl := astm.items.foldl (depsStep db file_id) rest
    ⟨r, wl, s.visited ++ [file_id]⟩

/-- The worklist loop of `Resolver::collect_defs_crate`, indexed by fuel.
The source's `while` loop has no fuel; the termination theorem below shows
that a computable amount of fuel makes the worklist empty, after which the
loop is the identity — i.e. the source loop terminates with this state. -/
def crateLoop (db : AnalyzerDb) : Nat → CrateState → CrateState
  | 0, s => s
  | fuel + 1, s =>
    match s.worklist with
    | [] => s
    | file_id :: rest => crateLoop db fuel (crateStep db s file_id rest)

/-- The initial state of `Resolver::collect_defs_crate`: fresh resolver,
worklist seeded with the entry file, empty visited set. -/
def crateInit (entry_file : FileId) : CrateState :=
  ⟨Resolver.new, [entry_file], []⟩

/-- A whole `Resolver::collect_defs_crate` run, returning the final state. -/
def crateRun (db : AnalyzerDb) (fuel : Nat) (entry_file : FileId) : CrateState :=
  crateLoop db fuel (crateInit entry_file)

/-- `Resolver::collect_defs_crate`: run the traversal and return the
definition map. -/
def collect_defs_crate (db : AnalyzerDb) (fuel : Nat) (entry_file : FileId) :
    DefMap :=
  (crateRun db fuel entry_file).resolver.def_map

/-- The dependencies one processed file pushes onto the worklist: the
use-statement scan of `collect_defs_crate` run on an empty worklist. -/
def fileDeps (db : AnalyzerDb) (f : FileId) : List FileId :=
  (db.ast f).items.foldl (depsStep db f) []

/-- The resolver state obtained by collecting the definitions of the given
files in order, starting from a fresh resolver.  The loop invariant below
shows the traversal's resolver is always `processFiles` of its visited
list. -/
def processFiles (db : AnalyzerDb) (files : List FileId) : Resolver :=
  files.foldl (fun r f => collect_defs_in_module db r (db.ast f)) Resolver.new

/-- Whether a top-level item is a definition (function or struct) rather
than an import declaration. -/
def isDecl : Item → Bool
  | .use_ _ => false
  | _ => true

/-- The definition items of an item list, in source order. -/
def declItems (l : List Item) : List Item := l.filter isDecl

/-- All definition items of the given files, in file order then source
order — the declarations the traversal registers when it visits exactly
these files in this order. -/
def crateDecls (db : AnalyzerDb) (files : List FileId) : List Item :=
  (files.map fun f => declItems (db.ast f).items).flatten

/-- The name text of a declaration item (unused for import items). -/
def itemNameText : Item → String
  | .function func_def => func_def.name.lexeme
  | .struct_ struct_def => struct_def.name.lexeme
  | .use_ _ => ""

/-- The kind the resolver assigns to a declaration item (unused for import
items). -/
def itemKindOf : Item → ItemKind
  | .function _ => ItemKind.function
  | _ => ItemKind.struct_

/-- The registry binding `collect_defs_in_module` creates for a declaration
item when the allocator hands out `id`. -/
def mkEntry (db : AnalyzerDb) (id : Nat) (item : Item) : DefId × ItemDef :=
  (id, ⟨id, db.intern_string (itemNameText item), itemKindOf item, item⟩)

/-- The registry bindings for a run of consecutive declaration items whose
first `DefId` is `c`. -/
def entriesFrom (db : AnalyzerDb) : Nat → List Item → List (DefId × ItemDef)
  | _, [] => []
  | c, item :: l => mkEntry db c item :: entriesFrom db (c + 1) l

mutual

/-- Ghost instrumentation of `discover_deps_in_tree`: the paths it passes
to `resolve_module`, read off the same match structure — one call per
simple node, none for a wildcard. -/
def resolveCallsInTree : UseTree → List ModPath
  | .simple path => [path]
  | .group items => resolveCallsInList items
  | .wildcard => []

/-- Ghost instrumentation for the group-member loop: the paths it passes
to `resolve_module`. -/
def resolveCallsInList : List UseTree → List ModPath
  | [] => []
  | t :: ts => resolveCallsInTree t ++ resolveCallsInList ts

end

/-- File `g` is reachable from file `a`: there is a chain of import edges,
each edge meaning "the target is among the dependencies the source's
use-statements resolve to". -/
def Reaches (db : AnalyzerDb) (a g : FileId) : Prop :=
  Relation.ReflTransGen (fun x y => y ∈ fileDeps db x) a g

/-- The query boundary resolves every import path into the finite file
universe `U` — the finiteness assumption of the spec. -/
def ResolvesInto (db : AnalyzerDb) (U : Finset FileId) : Prop :=
  ∀ a p f, db.resolve_module a p = some f → f ∈ U

/-- Fuel sufficient for any traversal over the universe `U`: one dequeue
for the entry file plus one dequeue for every dependency any file of `U`
can ever push. -/
def fuelBound (db : AnalyzerDb) (U : Finset FileId) : Nat :=
  1 + ∑ f ∈ U, (fileDeps db f).length

/-- Termination potential of a traversal state: pending dequeues plus the
pushes the still-unvisited files of `U` could contribute.  Every loop
iteration strictly decreases it. -/
def potential (db : AnalyzerDb) (U : Finset FileId) (s : CrateState) : Nat :=
  s.worklist.length + ∑ f ∈ U \ s.visited.toFinset, (fileDeps db f).length

/-- The loop invariant of `collect_defs_crate`, relative to a file universe
`U` and the entry file. -/
structure CrateInv (db : AnalyzerDb) (U : Finset FileId) (entry : FileId)
    (s : CrateState) : Prop where
  wl_mem : ∀ f ∈ s.worklist, f ∈ U
  vis_mem : ∀ f ∈ s.visited, f ∈ U
  vis_nodup : s.visited.Nodup
  wl_reach : ∀ f ∈ s.worklist, Reaches db entry f
  vis_reach : ∀ f ∈ s.visited, Reaches db entry f
  closed : ∀ f ∈ s.visited, ∀ g ∈ fileDeps db f, g ∈ s.visited ∨ g ∈ s.worklist
  entry_mem : entry ∈ s.visited ∨ entry ∈ s.worklist
  resolver_eq : s.resolver = processFiles db s.visited

/-- An injective string code (used to build a database whose interner
satisfies the intern contract): fold the characters through the Cantor
pairing function. -/
def strCode : List Char → Nat
  | [] => 0
  | c :: l => Nat.pair c.toNat (strCode l) + 1

/-- An interner satisfying the intern contract: same text, same symbol;
different text, different symbol. -/
def internInj (s : String) : Symbol := strCode s.data

/-- Concrete test fixture (the multi-module example of the spec): the path
`utils` written in the entry file's import. -/
def utilsPath : ModPath := ⟨[⟨"utils"⟩]⟩

/-- Concrete test fixture: the entry module `main` — `use utils` followed
by `fun main() {}`. -/
def mainModule : Module :=
  ⟨[.use_ ⟨.simple utilsPath⟩, .function ⟨⟨"main"⟩⟩]⟩

/-- Concrete test fixture: the module `utils` — `struct Point {}` then
`fun helper() {}`. -/
def utilsModule : Module :=
  ⟨[.struct_ ⟨⟨"Point"⟩⟩, .function ⟨⟨"helper"⟩⟩]⟩

/-- Concrete test fixture: a small interner for the example's three names. -/
def exIntern (s : String) : Symbol :=
  if s = "main" then 0 else if s = "Point" then 1 else
    if s = "helper" then 2 else 3

/-- Concrete test fixture: symbol-to-text lookup inverting `exIntern` on
the example's three names. -/
def exLookup (n : Symbol) : String :=
  if n = 0 then "main" else if n = 1 then "Point" else
    if n = 2 then "helper" else ""

/-- Concrete test fixture: the two-file example database — file 0 is
`mainModule`, file 1 is `utilsModule`, and the path `utils` resolves to
file 1 from anywhere. -/
def exampleDb : AnalyzerDb :=
  ⟨fun f => if f = 0 then mainModule else utilsModule,
   fun _ p => if p = utilsPath then some 1 else none,
   exIntern⟩

/-- Concrete test fixture: the example database with the injective
interner instead of the three-name one. -/
def exampleDbInj : AnalyzerDb :=
  ⟨fun f => if f = 0 then mainModule else utilsModule,
   fun _ p => if p = utilsPath then some 1 else none,
   internInj⟩

/-- Concrete test fixture: the import path `a`. -/
def aPath : ModPath := ⟨[⟨"a"⟩]⟩

/-- Concrete test fixture: the import path `b`. -/
def bPath : ModPath := ⟨[⟨"b"⟩]⟩

/-- Concrete test fixture: a two-file import cycle — file 0 imports `b`
(file 1) and declares `fa`; file 1 imports `a` (file 0) and declares
`fb`. -/
def cycleDb : AnalyzerDb :=
  ⟨fun f =>
    if f = 0 then ⟨[.use_ ⟨.simple bPath⟩, .function ⟨⟨"fa"⟩⟩]⟩
    else ⟨[.use_ ⟨.simple aPath⟩, .function ⟨⟨"fb"⟩⟩]⟩,
   fun _ p => if p = aPath then some 0 else if p = bPath then some 1 else none,
   exIntern⟩

/-- Concrete test fixture: the import path `missing`, which no database
below resolves. -/
def missingPath : ModPath := ⟨[⟨"missing"⟩]⟩

/-- Concrete test fixture: a database whose entry file has one
unresolvable import (`missing`) and one resolvable import (`utils`). -/
def lossyDb : AnalyzerDb :=
  ⟨fun f =>
    if f = 0 then
      ⟨[.use_ ⟨.simple missingPath⟩, .use_ ⟨.simple utilsPath⟩,
        .function ⟨⟨"main"⟩⟩]⟩
    else utilsModule,
   fun _ p => if p = utilsPath then some 1 else none,
   exIntern⟩

/-- The allocator state after `k` calls to `new_def_id` on a fresh
`DefIdAllocator`. -/
def allocAfter : Nat → DefIdAllocator
  | 0 => DefIdAllocator.new
  | k + 1 => ((allocAfter k).new_def_id).2

/-- The `DefId` returned by the `k`-th call (0-based) to `new_def_id` on a
fresh allocator. -/
def nthDefId (k : Nat) : DefId := ((allocAfter k).new_def_id).1

mutual

/-- Walking a use-tree only appends to the worklist: the result is the
incoming worklist followed by the files the tree contributes on its own. -/
theorem discover_deps_in_tree_append (db : AnalyzerDb) (a : FileId) :
    ∀ (t : UseTree) (wl : List FileId),
      discover_deps_in_tree db a t wl = wl ++ discover_deps_in_tree db a t []
  | .simple p, wl => by
    cases h : db.resolve_module a p <;>
      simp [discover_deps_in_tree, h]
  | .group ts, wl => by
    simp only [discover_deps_in_tree]
    exact goList_append db a ts wl
  | .wildcard, wl => by
    simp [discover_deps_in_tree]

/-- The group-member loop only appends to the worklist. -/
theorem goList_append (db : AnalyzerDb) (a : FileId) :
    ∀ (ts : List UseTree) (wl : List FileId),
      discover_deps_in_list db a ts wl =
        wl ++ discover_deps_in_list db a ts []
  | [], wl => by simp [discover_deps_in_list]
  | t :: ts, wl => by
    simp only [discover_deps_in_list]
    rw [goList_append db a ts (discover_deps_in_tree db a t wl),
      goList_append db a ts (discover_deps_in_tree db a t []),
      discover_deps_in_tree_append db a t wl, List.append_assoc]

end

/-- One scan step only appends to the worklist. -/
theorem depsStep_append (db : AnalyzerDb) (f : FileId) (wl : List FileId)
    (item : Item) : depsStep db f wl item = wl ++ depsStep db f [] item := by
  cases item with
  | use_ use_stmt =>
    simp only [depsStep]
    rw [discover_deps_in_tree_append]
  | function func_def => simp [depsStep]
  | struct_ struct_def => simp [depsStep]

/-- The use-statement scan of one file only appends to the worklist. -/
theorem depsFold_append (db : AnalyzerDb) (f : FileId) :
    ∀ (l : List Item) (wl : List FileId),
      l.foldl (depsStep db f) wl = wl ++ l.foldl (depsStep db f) []
  | [], wl => by simp
  | item :: l, wl => by
    simp only [List.foldl_cons]
    rw [depsFold_append db f l (depsStep db f wl item),
      depsFold_append db f l (depsStep db f [] item),
      depsStep_append db f wl item, List.append_assoc]

/-- `crateStep` on an unvisited file: mark it visited, collect its
definitions, and append exactly its `fileDeps` to the remaining worklist. -/
theorem crateStep_not_visited (db : AnalyzerDb) (s : CrateState)
    (file_id : FileId) (rest : List FileId) (h : file_id ∉ s.visited) :
    crateStep db s file_id rest =
      ⟨collect_defs_in_module db s.resolver (db.ast file_id),
        rest ++ fileDeps db file_id, s.visited ++ [file_id]⟩ := by
  simp only [crateStep, if_neg h, fileDeps]
  rw [depsFold_append]

/-- `crateStep` on an already-visited file: drop it, change nothing else. -/
theorem crateStep_visited (db : AnalyzerDb) (s : CrateState)
    (file_id : FileId) (rest : List FileId) (h : file_id ∈ s.visited) :
    crateStep db s file_id rest = ⟨s.resolver, rest, s.visited⟩ := by
  simp [crateStep, if_pos h]

mutual

/-- Every file a use-tree walk adds to the worklist is a successful
`resolve_module` answer for the anchor file. -/
theorem discover_deps_in_tree_mem (db : AnalyzerDb) (a : FileId) :
    ∀ (t : UseTree) (wl : List FileId) (g : FileId),
      g ∈ discover_deps_in_tree db a t wl →
      g ∈ wl ∨ ∃ p, db.resolve_module a p = some g
  | .simple p, wl, g => by
    intro hg
    cases h : db.resolve_module a p with
    | none =>
      simp only [discover_deps_in_tree, h] at hg
      exact Or.inl hg
    | some r =>
      simp only [discover_deps_in_tree, h, List.mem_append,
        List.mem_singleton] at hg
      rcases hg with hg | rfl
      · exact Or.inl hg
      · exact Or.inr ⟨p, h⟩
  | .group ts, wl, g => by
    intro hg
    simp only [discover_deps_in_tree] at hg
    exact goList_mem db a ts wl g hg
  | .wildcard, wl, g => by
    intro hg
    simp only [discover_deps_in_tree] at hg
    exact Or.inl hg

/-- Group-member-loop version of `discover_deps_in_tree_mem`. -/
theorem goList_mem (db : AnalyzerDb) (a : FileId) :
    ∀ (ts : List UseTree) (wl : List FileId) (g : FileId),
      g ∈ discover_deps_in_list db a ts wl →
      g ∈ wl ∨ ∃ p, db.resolve_module a p = some g
  | [], wl, g => by
    intro hg
    simp only [discover_deps_in_list] at hg
    exact Or.inl hg
  | t :: ts, wl, g => by
    intro hg
    simp only [discover_deps_in_list] at hg
    rcases goList_mem db a ts _ g hg with h | h
    · exact discover_deps_in_tree_mem db a t wl g h
    · exact Or.inr h

end

/-- Every file the use-statement scan adds to the worklist is a successful
`resolve_module` answer for the scanned file. -/
theorem depsFold_mem (db : AnalyzerDb) (f : FileId) :
    ∀ (l : List Item) (wl : List FileId) (g : FileId),
      g ∈ l.foldl (depsStep db f) wl →
      g ∈ wl ∨ ∃ p, db.resolve_module f p = some g
  | [], wl, g => by
    intro h
    simpa using Or.inl h
  | item :: l, wl, g => by
    intro h
    simp only [List.foldl_cons] at h
    rcases depsFold_mem db f l _ g h with h' | h'
    · cases item with
      | use_ use_stmt =>
        simp only [depsStep] at h'
        exact discover_deps_in_tree_mem db f use_stmt.tree wl g h'
      | function func_def => exact Or.inl h'
      | struct_ struct_def => exact Or.inl h'
    · exact Or.inr h'

/-- Every dependency a file pushes is a successful `resolve_module` answer
for that file. -/
theorem fileDeps_mem (db : AnalyzerDb) (f g : FileId)
    (h : g ∈ fileDeps db f) : ∃ p, db.resolve_module f p = some g := by
  rcases depsFold_mem db f _ [] g h with h' | h'
  · simp at h'
  · exact h'

/-- Under the finite-universe assumption, every pushed dependency lies in
the universe. -/
theorem fileDeps_subset (db : AnalyzerDb) (U : Finset FileId)
    (hU : ResolvesInto db U) (f g : FileId) (hg : g ∈ fileDeps db f) :
    g ∈ U := by
  rcases fileDeps_mem db f g hg with ⟨p, hp⟩
  exact hU f p g hp

/-- The initial state of the traversal satisfies the loop invariant. -/
theorem crateInv_init (db : AnalyzerDb) (U : Finset FileId) (entry : FileId)
    (hentry : entry ∈ U) : CrateInv db U entry (crateInit entry) := by
  refine ⟨?_, ?_, ?_, ?_, ?_, ?_, ?_, ?_⟩
  · intro f hf
    simp only [crateInit, List.mem_singleton] at hf
    subst hf; exact hentry
  · intro f hf; simp [crateInit] at hf
  · simp [crateInit]
  · intro f hf
    simp only [crateInit, List.mem_singleton] at hf
    subst hf; exact Relation.ReflTransGen.refl
  · intro f hf; simp [crateInit] at hf
  · intro f hf; simp [crateInit] at hf
  · right; simp [crateInit]
  · rfl

/-- One loop iteration preserves the invariant. -/
theorem crateInv_step (db : AnalyzerDb) (U : Finset FileId) (entry : FileId)
    (s : CrateState) (file_id : FileId) (rest : List FileId)
    (hU : ResolvesInto db U) (hwl : s.worklist = file_id :: rest)
    (hinv : CrateInv db U entry s) :
    CrateInv db U entry (crateStep db s file_id rest) := by
  obtain ⟨wl_mem, vis_mem, vis_nodup, wl_reach, vis_reach, closed,
    entry_mem, resolver_eq⟩ := hinv
  by_cases hv : file_id ∈ s.visited
  · rw [crateStep_visited db s file_id rest hv]
    refine ⟨?_, vis_mem, vis_nodup, ?_, vis_reach, ?_, ?_, resolver_eq⟩
    · intro f hf; exact wl_mem f (by rw [hwl]; exact List.mem_cons_of_mem _ hf)
    · intro f hf; exact wl_reach f (by rw [hwl]; exact List.mem_cons_of_mem _ hf)
    · intro f hf g hg
      rcases closed f hf g hg with h | h
      · exact Or.inl h
      · rw [hwl] at h
        rcases List.mem_cons.mp h with rfl | h
        · exact Or.inl hv
        · exact Or.inr h
    · rcases entry_mem with h | h
      · exact Or.inl h
      · rw [hwl] at h
        rcases List.mem_cons.mp h with rfl | h
        · exact Or.inl hv
        · exact Or.inr h
  · rw [crateStep_not_visited db s file_id rest hv]
    have hfile_mem : file_id ∈ U :=
      wl_mem file_id (by rw [hwl]; exact List.mem_cons_self _ _)
    have hfile_reach : Reaches db entry file_id :=
      wl_reach file_id (by rw [hwl]; exact List.mem_cons_self _ _)
    refine ⟨?_, ?_, ?_, ?_, ?_, ?_, ?_, ?_⟩
    · intro f hf
      rcases List.mem_append.mp hf with h | h
      · exact wl_mem f (by rw [hwl]; exact List.mem_cons_of_mem _ h)
      · exact fileDeps_subset db U hU file_id f h
    · intro f hf
      rcases List.mem_append.mp hf with h | h
      · exact vis_mem f h
      · rcases List.mem_singleton.mp h with rfl
        exact hfile_mem
    · exact List.Nodup.append vis_nodup (List.nodup_singleton _)
        (by intro x hx hx'
            rcases List.mem_singleton.mp hx' with rfl
            exact hv hx)
    · intro f hf
      rcases List.mem_append.mp hf with h | h
      · exact wl_reach f (by rw [hwl]; exact List.mem_cons_of_mem _ h)
      · exact Relation.ReflTransGen.tail hfile_reach h
    · intro f hf
      rcases List.mem_append.mp hf with h | h
      · exact vis_reach f h
      · rcases List.mem_singleton.mp h with rfl
        exact hfile_reach
    · intro f hf g hg
      rcases List.mem_append.mp hf with h | h
      · rcases closed f h g hg with h' | h'
        · exact Or.inl (List.mem_append.mpr (Or.inl h'))
        · rw [hwl] at h'
          rcases List.mem_cons.mp h' with rfl | h'
          · exact Or.inl (List.mem_append.mpr (Or.inr (List.mem_singleton_self _)))
          · exact Or.inr (List.mem_append.mpr (Or.inl h'))
      · rcases List.mem_singleton.mp h with rfl
        exact Or.inr (List.mem_append.mpr (Or.inr hg))
    · rcases entry_mem with h | h
      · exact Or.inl (List.mem_append.mpr (Or.inl h))
      · rw [hwl] at h
        rcases List.mem_cons.mp h with rfl | h
        · exact Or.inl (List.mem_append.mpr (Or.inr (List.mem_singleton_self _)))
        · exact Or.inr (List.mem_append.mpr (Or.inl h))
    · show collect_defs_in_module db s.resolver (db.ast file_id) =
        processFiles db (s.visited ++ [file_id])
      rw [resolver_eq]
      show _ = List.foldl _ Resolver.new (s.visited ++ [file_id])
      rw [List.foldl_append]
      rfl

/-- Every loop iteration strictly decreases the termination potential. -/
theorem potential_step (db : AnalyzerDb) (U : Finset FileId) (entry : FileId)
    (s : CrateState) (file_id : FileId) (rest : List FileId)
    (hwl : s.worklist = file_id :: rest)
    (hinv : CrateInv db U entry s) :
    potential db U (crateStep db s file_id rest) < potential db U s := by
  by_cases hv : file_id ∈ s.visited
  · rw [crateStep_visited db s file_id rest hv]
    simp only [potential, hwl, List.length_cons]
    omega
  · rw [crateStep_not_visited db s file_id rest hv]
    have hfile_mem : file_id ∈ U :=
      hinv.wl_mem file_id (by rw [hwl]; exact List.mem_cons_self _ _)
    have hfV : file_id ∈ U \ s.visited.toFinset := by
      rw [Finset.mem_sdiff, List.mem_toFinset]
      exact ⟨hfile_mem, hv⟩
    have hsd : U \ (s.visited ++ [file_id]).toFinset =
        (U \ s.visited.toFinset).erase file_id := by
      ext x
      simp only [List.toFinset_append, Finset.mem_sdiff, Finset.mem_union,
        List.toFinset_cons, List.toFinset_nil, insert_emptyc_eq,
        Finset.mem_insert, Finset.mem_erase, Finset.mem_singleton]
      tauto
    have hsum := Finset.sum_erase_add (U \ s.visited.toFinset)
      (fun f => (fileDeps db f).length) hfV
    simp only [] at hsum
    simp only [potential, hwl, List.length_cons, List.length_append, hsd]
    omega

/-- With fuel at least the current potential, the loop drains the worklist
and the invariant still holds at the final state. -/
theorem crateLoop_spec (db : AnalyzerDb) (U : Finset FileId) (entry : FileId)
    (hU : ResolvesInto db U) :
    ∀ (fuel : Nat) (s : CrateState), CrateInv db U entry s →
      potential db U s ≤ fuel →
      (crateLoop db fuel s).worklist = [] ∧
        CrateInv db U entry (crateLoop db fuel s)
  | 0, s, hinv, hpot => by
    have hlen : s.worklist.length = 0 := by
      have : s.worklist.length ≤ potential db U s := Nat.le_add_right _ _
      omega
    have : s.worklist = [] := List.eq_nil_of_length_eq_zero hlen
    exact ⟨this, hinv⟩
  | fuel + 1, s, hinv, hpot => by
    cases hwl : s.worklist with
    | nil =>
      obtain ⟨r, wl, vis⟩ := s
      simp only at hwl
      subst hwl
      exact ⟨rfl, hinv⟩
    | cons file_id rest =>
      have hstep := crateInv_step db U entry s file_id rest hU hwl hinv
      have hdec := potential_step db U entry s file_id rest hwl hinv
      have hle : potential db U (crateStep db s file_id rest) ≤ fuel := by
        omega
      have hrec := crateLoop_spec db U entry hU fuel
        (crateStep db s file_id rest) hstep hle
      obtain ⟨r, wl, vis⟩ := s
      simp only at hwl
      subst hwl
      exact hrec

/-- At a worklist-empty invariant state, the visited list is exactly the
set of files reachable from the entry file. -/
theorem final_visited_iff (db : AnalyzerDb) (U : Finset FileId)
    (entry : FileId) (s : CrateState) (hinv : CrateInv db U entry s)
    (hempty : s.worklist = []) :
    ∀ x, x ∈ s.visited ↔ Reaches db entry x := by
  intro x
  constructor
  · exact fun h => hinv.vis_reach x h
  · intro h
    induction h with
    | refl =>
      rcases hinv.entry_mem with h' | h'
      · exact h'
      · rw [hempty] at h'
        exact absurd h' (List.not_mem_nil _)
    | tail hab hbc ih =>
      rcases hinv.closed _ ih _ hbc with h' | h'
      · exact h'
      · rw [hempty] at h'
        exact absurd h' (List.not_mem_nil _)

/-- The initial potential is the fuel bound. -/
theorem potential_init (db : AnalyzerDb) (U : Finset FileId)
    (entry : FileId) : potential db U (crateInit entry) = fuelBound db U := by
  simp [potential, crateInit, fuelBound]

/-- Master theorem for a full traversal run with sufficient fuel: the
worklist drains, the invariant holds, and the visited list enumerates the
reachable files exactly once. -/
theorem crateRun_spec (db : AnalyzerDb) (U : Finset FileId) (entry : FileId)
    (hU : ResolvesInto db U) (hentry : entry ∈ U) (fuel : Nat)
    (hfuel : fuelBound db U ≤ fuel) :
    (crateRun db fuel entry).worklist = [] ∧
      CrateInv db U entry (crateRun db fuel entry) ∧
      ∀ x, x ∈ (crateRun db fuel entry).visited ↔ Reaches db entry x := by
  have hinit := crateInv_init db U entry hentry
  have hpot : potential db U (crateInit entry) ≤ fuel := by
    rw [potential_init]; exact hfuel
  obtain ⟨hempty, hinv⟩ :=
    crateLoop_spec db U entry hU fuel (crateInit entry) hinit hpot
  exact ⟨hempty, hinv, final_visited_iff db U entry _ hinv hempty⟩

/-- Splitting a run of consecutive registry bindings. -/
theorem entriesFrom_append (db : AnalyzerDb) :
    ∀ (l1 l2 : List Item) (c : Nat),
      entriesFrom db c (l1 ++ l2) =
        entriesFrom db c l1 ++ entriesFrom db (c + l1.length) l2
  | [], l2, c => by simp [entriesFrom]
  | item :: l1, l2, c => by
    simp only [List.cons_append, entriesFrom, List.length_cons, List.append_eq]
    rw [entriesFrom_append db l1 l2 (c + 1)]
    have : c + 1 + l1.length = c + (l1.length + 1) := by omega
    rw [this]

/-- The keys of a run of consecutive bindings are the consecutive ids. -/
theorem entriesFrom_map_fst (db : AnalyzerDb) :
    ∀ (l : List Item) (c : Nat),
      (entriesFrom db c l).map Prod.fst = List.range' c l.length
  | [], c => by simp [entriesFrom]
  | item :: l, c => by
    simp only [entriesFrom, mkEntry, List.map_cons, List.length_cons,
      List.range'_succ, entriesFrom_map_fst db l (c + 1)]

/-- Shape of each binding in a run: key equals the record's own id, the
record's name is the interned name text of its stored syntax node, its kind
classifies that node, and the node is one of the listed items. -/
theorem mem_entriesFrom (db : AnalyzerDb) :
    ∀ (l : List Item) (c : Nat) (p : DefId × ItemDef),
      p ∈ entriesFrom db c l →
      p.2.ast_node ∈ l ∧ p.1 = p.2.def_id ∧
        p.2.name = db.intern_string (itemNameText p.2.ast_node) ∧
        p.2.kind = itemKindOf p.2.ast_node
  | [], c, p => by simp [entriesFrom]
  | item :: l, c, p => by
    intro hp
    rcases List.mem_cons.mp hp with rfl | hp
    · exact ⟨List.mem_cons_self _ _, rfl, rfl, rfl⟩
    · obtain ⟨h1, h2, h3, h4⟩ := mem_entriesFrom db l (c + 1) p hp
      exact ⟨List.mem_cons_of_mem _ h1, h2, h3, h4⟩

/-- Inserting a fresh key appends the binding. -/
theorem hashInsert_not_mem (m : List (DefId × ItemDef)) (k : DefId)
    (v : ItemDef) (h : k ∉ m.map Prod.fst) :
    hashInsert m k v = m ++ [(k, v)] := by
  simp [hashInsert, h]

/-- Any binding of the map after an insert was there before or is the
inserted one. -/
theorem hashInsert_mem_cases (m : List (DefId × ItemDef)) (k : DefId)
    (v : ItemDef) (p : DefId × ItemDef) (h : p ∈ hashInsert m k v) :
    p ∈ m ∨ p = (k, v) := by
  unfold hashInsert at h
  split at h
  · rcases List.mem_map.mp h with ⟨q, hq, hfq⟩
    by_cases hqk : q.1 = k
    · rw [if_pos hqk] at hfq
      exact Or.inr hfq.symm
    · rw [if_neg hqk] at hfq
      exact Or.inl (hfq ▸ hq)
  · rcases List.mem_append.mp h with h | h
    · exact Or.inl h
    · exact Or.inr (List.mem_singleton.mp h)

/-- Characterization of the item scan of `collect_defs_in_module`: starting
from a counter standing for true count `c` (as a `u32`) and a map whose
keys are all below `c`, scanning `l` advances the counter by the number of
declaration items and appends exactly their bindings, with consecutive
ids. The bound keeps every allocated id inside the `u32` range. -/
theorem collect_items_spec (db : AnalyzerDb) :
    ∀ (l : List Item) (r : Resolver) (c : Nat),
      r.id_allocator.counter = c % 2 ^ 32 →
      c + (declItems l).length ≤ 2 ^ 32 →
      (∀ x ∈ r.def_map.items.map Prod.fst, x < c) →
      (l.foldl (collectItem db) r).id_allocator.counter =
          (c + (declItems l).length) % 2 ^ 32 ∧
        (l.foldl (collectItem db) r).def_map.items =
          r.def_map.items ++ entriesFrom db c (declItems l)
  | [], r, c, hc, hle, hkeys => by
    simp [declItems, entriesFrom, hc]
  | .use_ use_stmt :: l, r, c, hc, hle, hkeys => by
    have hd : declItems (Item.use_ use_stmt :: l) = declItems l := by
      simp [declItems, isDecl]
    rw [hd] at hle ⊢
    simp only [List.foldl_cons, collectItem]
    exact collect_items_spec db l r c hc hle hkeys
  | .function func_def :: l, r, c, hc, hle, hkeys => by
    have hd : declItems (Item.function func_def :: l) =
        Item.function func_def :: declItems l := by
      simp [declItems, isDecl]
    rw [hd] at hle ⊢
    simp only [List.length_cons] at hle
    have hclt : c < 2 ^ 32 := by omega
    have hcnt : r.id_allocator.counter = c := by
      rw [hc]; exact Nat.mod_eq_of_lt hclt
    have hfresh : c ∉ r.def_map.items.map Prod.fst := fun hmem =>
      absurd (hkeys c hmem) (lt_irrefl c)
    simp only [List.foldl_cons, collectItem, DefIdAllocator.new_def_id, hcnt]
    rw [hashInsert_not_mem _ _ _ hfresh]
    have hble : c + 1 + (declItems l).length ≤ 2 ^ 32 := by omega
    have hbkeys : ∀ x ∈ (r.def_map.items ++
        [((c : DefId), (⟨c, db.intern_string func_def.name.lexeme, ItemKind.function,
          Item.function func_def⟩ : ItemDef))]).map Prod.fst, x < c + 1 := by
      intro x hx
      rw [List.map_append] at hx
      rcases List.mem_append.mp hx with hx | hx
      · exact Nat.lt_succ_of_lt (hkeys x hx)
      · have hxc : x = c := by simpa using hx
        exact hxc ▸ Nat.lt_succ_self c
    have hrec := collect_items_spec db l
      ⟨⟨(c + 1) % 2 ^ 32⟩,
        ⟨r.def_map.items ++
          [(c, ⟨c, db.intern_string func_def.name.lexeme, ItemKind.function,
            Item.function func_def⟩)]⟩⟩
      (c + 1) rfl hble hbkeys
    obtain ⟨h1, h2⟩ := hrec
    constructor
    · refine h1.trans ?_
      simp only [List.length_cons]
      omega
    · refine h2.trans ?_
      simp only [entriesFrom, mkEntry, itemNameText, itemKindOf,
        List.append_assoc, List.singleton_append]
  | .struct_ struct_def :: l, r, c, hc, hle, hkeys => by
    have hd : declItems (Item.struct_ struct_def :: l) =
        Item.struct_ struct_def :: declItems l := by
      simp [declItems, isDecl]
    rw [hd] at hle ⊢
    simp only [List.length_cons] at hle
    have hclt : c < 2 ^ 32 := by omega
    have hcnt : r.id_allocator.counter = c := by
      rw [hc]; exact Nat.mod_eq_of_lt hclt
    have hfresh : c ∉ r.def_map.items.map Prod.fst := fun hmem =>
      absurd (hkeys c hmem) (lt_irrefl c)
    simp only [List.foldl_cons, collectItem, DefIdAllocator.new_def_id, hcnt]
    rw [hashInsert_not_mem _ _ _ hfresh]
    have hble : c + 1 + (declItems l).length ≤ 2 ^ 32 := by omega
    have hbkeys : ∀ x ∈ (r.def_map.items ++
        [((c : DefId), (⟨c, db.intern_string struct_def.name.lexeme, ItemKind.struct_,
          Item.struct_ struct_def⟩ : ItemDef))]).map Prod.fst, x < c + 1 := by
      intro x hx
      rw [List.map_append] at hx
      rcases List.mem_append.mp hx with hx | hx
      · exact Nat.lt_succ_of_lt (hkeys x hx)
      · have hxc : x = c := by simpa using hx
        exact hxc ▸ Nat.lt_succ_self c
    have hrec := collect_items_spec db l
      ⟨⟨(c + 1) % 2 ^ 32⟩,
        ⟨r.def_map.items ++
          [(c, ⟨c, db.intern_string struct_def.name.lexeme, ItemKind.struct_,
            Item.struct_ struct_def⟩)]⟩⟩
      (c + 1) rfl hble hbkeys
    obtain ⟨h1, h2⟩ := hrec
    constructor
    · refine h1.trans ?_
      simp only [List.length_cons]
      omega
    · refine h2.trans ?_
      simp only [entriesFrom, mkEntry, itemNameText, itemKindOf,
        List.append_assoc, List.singleton_append]

/-- Characterization of collecting over a list of files, generalizing over
the starting resolver. -/
theorem processFiles_fold_spec (db : AnalyzerDb) :
    ∀ (files : List FileId) (r : Resolver) (c : Nat),
      r.id_allocator.counter = c % 2 ^ 32 →
      c + (crateDecls db files).length ≤ 2 ^ 32 →
      (∀ x ∈ r.def_map.items.map Prod.fst, x < c) →
      (files.foldl (fun r f => collect_defs_in_module db r (db.ast f))
          r).id_allocator.counter =
          (c + (crateDecls db files).length) % 2 ^ 32 ∧
        (files.foldl (fun r f => collect_defs_in_module db r (db.ast f))
            r).def_map.items =
          r.def_map.items ++ entriesFrom db c (crateDecls db files)
  | [], r, c, hc, hle, hkeys => by
    simp [crateDecls, entriesFrom, hc]
  | f :: files, r, c, hc, hle, hkeys => by
    have hcd : crateDecls db (f :: files) =
        declItems (db.ast f).items ++ crateDecls db files := by
      simp [crateDecls]
    rw [hcd] at hle ⊢
    simp only [List.length_append] at hle
    obtain ⟨m1, m2⟩ := collect_items_spec db (db.ast f).items r c hc
      (by omega) hkeys
    have hkeys1 : ∀ x ∈ ((db.ast f).items.foldl (collectItem db)
        r).def_map.items.map Prod.fst,
        x < c + (declItems (db.ast f).items).length := by
      intro x hx
      rw [m2, List.map_append, entriesFrom_map_fst] at hx
      rcases List.mem_append.mp hx with hx | hx
      · exact Nat.lt_of_lt_of_le (hkeys x hx) (Nat.le_add_right _ _)
      · rw [List.mem_range'_1] at hx
        exact hx.2
    obtain ⟨h1, h2⟩ := processFiles_fold_spec db files
      ((db.ast f).items.foldl (collectItem db) r)
      (c + (declItems (db.ast f).items).length) m1 (by omega) hkeys1
    constructor
    · refine h1.trans ?_
      simp only [List.length_append]
      omega
    · refine h2.trans ?_
      rw [m2, entriesFrom_append, List.append_assoc]

/-- Characterization of the full collection starting from a fresh resolver:
under the `u32` bound, the final counter is the number of declarations and
the registry is exactly their consecutive bindings from id `0`. -/
theorem processFiles_spec (db : AnalyzerDb) (files : List FileId)
    (h : (crateDecls db files).length ≤ 2 ^ 32) :
    (processFiles db files).id_allocator.counter =
        (crateDecls db files).length % 2 ^ 32 ∧
      (processFiles db files).def_map.items =
        entriesFrom db 0 (crateDecls db files) := by
  obtain ⟨h1, h2⟩ := processFiles_fold_spec db files Resolver.new 0
    (by simp [Resolver.new, DefIdAllocator.new])
    (by omega)
    (by simp [Resolver.new, DefMap.new])
  constructor
  · refine h1.trans ?_
    simp
  · refine h2.trans ?_
    simp [Resolver.new, DefMap.new]

/-- The syntax nodes stored in a run of consecutive bindings are exactly
the listed items, in order. -/
theorem entriesFrom_map_ast (db : AnalyzerDb) :
    ∀ (l : List Item) (c : Nat),
      (entriesFrom db c l).map (fun p => p.2.ast_node) = l
  | [], c => rfl
  | item :: l, c => by
    simp only [entriesFrom, mkEntry, List.map_cons,
      entriesFrom_map_ast db l (c + 1)]

/-- Every listed item has a binding holding it as stored syntax node. -/
theorem entriesFrom_exists (db : AnalyzerDb) :
    ∀ (l : List Item) (c : Nat) (item : Item), item ∈ l →
      ∃ k e, (k, e) ∈ entriesFrom db c l ∧ e.ast_node = item
  | [], c, item => by simp
  | x :: l, c, item => by
    intro h
    rcases List.mem_cons.mp h with rfl | h
    · exact ⟨c, _, List.mem_cons_self _ _, rfl⟩
    · obtain ⟨k, e, hmem, he⟩ := entriesFrom_exists db l (c + 1) item h
      exact ⟨k, e, List.mem_cons_of_mem _ hmem, he⟩

/-- The group-member loop enqueues the concatenation of what each member
enqueues independently. -/
theorem goList_flatten (db : AnalyzerDb) (a : FileId) :
    ∀ (ts : List UseTree) (wl : List FileId),
      discover_deps_in_list db a ts wl =
        wl ++ (ts.map fun t => discover_deps_in_tree db a t []).flatten
  | [], wl => by simp [discover_deps_in_list]
  | t :: ts, wl => by
    simp only [discover_deps_in_list, List.map_cons, List.flatten_cons]
    rw [goList_flatten db a ts (discover_deps_in_tree db a t wl),
      discover_deps_in_tree_append db a t wl, List.append_assoc]

/-- Shape of every binding after a module scan: it was already present, or
it records a declaration item of the scanned list with the interned name
and the kind read off that item. -/
theorem collect_items_shape (db : AnalyzerDb) :
    ∀ (l : List Item) (r : Resolver) (p : DefId × ItemDef),
      p ∈ (l.foldl (collectItem db) r).def_map.items →
      p ∈ r.def_map.items ∨
        (p.2.ast_node ∈ l ∧ isDecl p.2.ast_node = true ∧
          p.2.name = db.intern_string (itemNameText p.2.ast_node) ∧
          p.2.kind = itemKindOf p.2.ast_node)
  | [], r, p => fun h => Or.inl h
  | item :: l, r, p => by
    intro h
    simp only [List.foldl_cons] at h
    rcases collect_items_shape db l (collectItem db r item) p h with h' | h'
    · cases item with
      | use_ use_stmt => exact Or.inl h'
      | function func_def =>
        simp only [collectItem, DefIdAllocator.new_def_id] at h'
        rcases hashInsert_mem_cases _ _ _ p h' with h'' | rfl
        · exact Or.inl h''
        · exact Or.inr ⟨List.mem_cons_self _ _, rfl, rfl, rfl⟩
      | struct_ struct_def =>
        simp only [collectItem, DefIdAllocator.new_def_id] at h'
        rcases hashInsert_mem_cases _ _ _ p h' with h'' | rfl
        · exact Or.inl h''
        · exact Or.inr ⟨List.mem_cons_self _ _, rfl, rfl, rfl⟩
    · exact Or.inr ⟨List.mem_cons_of_mem _ h'.1, h'.2⟩

/-- Shape of every binding of the registry at any point of the loop: it
records a declaration item of some visited file's fetched tree, its name
is the interned name text of that item, and its kind classifies it. -/
theorem crateLoop_entries_shape (db : AnalyzerDb) :
    ∀ (fuel : Nat) (s : CrateState),
      (∀ p ∈ s.resolver.def_map.items,
        (∃ f ∈ s.visited, p.2.ast_node ∈ (db.ast f).items) ∧
          isDecl p.2.ast_node = true ∧
          p.2.name = db.intern_string (itemNameText p.2.ast_node) ∧
          p.2.kind = itemKindOf p.2.ast_node) →
      ∀ p ∈ (crateLoop db fuel s).resolver.def_map.items,
        (∃ f ∈ (crateLoop db fuel s).visited,
          p.2.ast_node ∈ (db.ast f).items) ∧
          isDecl p.2.ast_node = true ∧
          p.2.name = db.intern_string (itemNameText p.2.ast_node) ∧
          p.2.kind = itemKindOf p.2.ast_node
  | 0, s => fun h => h
  | fuel + 1, s => by
    intro h
    obtain ⟨r, wl, vis⟩ := s
    cases wl with
    | nil => exact h
    | cons file_id rest =>
      refine crateLoop_entries_shape db fuel _ ?_
      by_cases hv : file_id ∈ vis
      · rw [crateStep_visited db ⟨r, file_id :: rest, vis⟩ file_id rest hv]
        exact h
      · rw [crateStep_not_visited db ⟨r, file_id :: rest, vis⟩ file_id rest hv]
        intro p hp
        rcases collect_items_shape db (db.ast file_id).items r p hp with h' | h'
        · obtain ⟨hex, hrest⟩ := h p h'
          obtain ⟨f, hf, hitem⟩ := hex
          exact ⟨⟨f, List.mem_append.mpr (Or.inl hf), hitem⟩, hrest⟩
        · exact ⟨⟨file_id,
            List.mem_append.mpr (Or.inr (List.mem_singleton_self _)), h'.1⟩,
            h'.2⟩

/-- The sum of a function over a duplicate-free list is its sum over the
corresponding finite set. -/
theorem nodup_map_sum (g : FileId → Nat) :
    ∀ (l : List FileId), l.Nodup → (l.map g).sum = ∑ f ∈ l.toFinset, g f
  | [], _ => by simp
  | a :: l, h => by
    have ha : a ∉ l := (List.nodup_cons.mp h).1
    have ha' : a ∉ l.toFinset := fun hmem => ha (List.mem_toFinset.mp hmem)
    simp only [List.map_cons, List.sum_cons, List.toFinset_cons,
      Finset.sum_insert ha', nodup_map_sum g l (List.nodup_cons.mp h).2]

/-- The number of declarations over a duplicate-free list of files from
the universe is at most the total declaration count of the universe. -/
theorem crateDecls_length_le (db : AnalyzerDb) (U : Finset FileId)
    (files : List FileId) (hnodup : files.Nodup)
    (hsub : ∀ f ∈ files, f ∈ U) :
    (crateDecls db files).length ≤
      ∑ f ∈ U, (declItems (db.ast f).items).length := by
  have h1 : (crateDecls db files).length =
      (files.map fun f => (declItems (db.ast f).items).length).sum := by
    simp [crateDecls, List.length_flatten, List.map_map]
    rfl
  rw [h1, nodup_map_sum _ files hnodup]
  exact Finset.sum_le_sum_of_subset fun f hf =>
    hsub f (List.mem_toFinset.mp hf)

/-- The injective string code is injective. -/
theorem strCode_inj : ∀ (l1 l2 : List Char), strCode l1 = strCode l2 → l1 = l2
  | [], [], _ => rfl
  | [], c :: l, h => by simp [strCode] at h
  | c :: l, [], h => by simp [strCode] at h
  | c :: l1, d :: l2, h => by
    simp only [strCode, Nat.add_right_cancel_iff] at h
    obtain ⟨hc, hl⟩ := Nat.pair_eq_pair.mp h
    have : c = d := Char.eq_of_val_eq (UInt32.ext hc)
    rw [this, strCode_inj l1 l2 hl]

/-- The interner `internInj` satisfies the intern contract. -/
theorem internInj_iff (s t : String) : internInj s = internInj t ↔ s = t := by
  constructor
  · intro h
    have : s.data = t.data := strCode_inj _ _ h
    cases s; cases t
    exact congrArg String.mk this
  · intro h; rw [h]

/-- The allocator counter after `k` calls is `k` as a `u32`. -/
theorem allocAfter_counter : ∀ k : Nat, (allocAfter k).counter = k % 2 ^ 32
  | 0 => rfl
  | k + 1 => by
    simp only [allocAfter, DefIdAllocator.new_def_id, allocAfter_counter k]
    omega

/-- A scan of items containing no declarations leaves the resolver
unchanged. -/
theorem foldl_collect_no_decls (db : AnalyzerDb) :
    ∀ (l : List Item) (r : Resolver), declItems l = [] →
      l.foldl (collectItem db) r = r
  | [], r, _ => rfl
  | item :: l, r, h => by
    cases item with
    | use_ use_stmt =>
      have h' : declItems l = [] := by
        simpa [declItems, isDecl] using h
      simp only [List.foldl_cons, collectItem]
      exact foldl_collect_no_decls db l r h'
    | function func_def => simp [declItems, isDecl] at h
    | struct_ struct_def => simp [declItems, isDecl] at h

/-- C1: For every finite, possibly cyclic import graph (including
self-imports and two-file cycles), `collect_defs_crate` terminates: with
fuel at least the computable bound the worklist drains (the source's
unbounded `while` loop exits), each reachable file is dequeued-and-processed
exactly once (the visited list is duplicate-free and enumerates exactly the
reachable files, and processing happens exactly when a file enters it), the
number of process steps equals the number of reachable files, and the
definitions of the visited files — cyclic or not — each appear exactly once
in the registry, not duplicated. -/
theorem claim_C1_cycle_safe_termination (db : AnalyzerDb) (U : Finset FileId)
    (entry : FileId) (fuel : Nat) (hU : ResolvesInto db U) (hentry : entry ∈ U)
    (hfuel : fuelBound db U ≤ fuel)
    (hsum : ∑ f ∈ U, (declItems (db.ast f).items).length ≤ 2 ^ 32) :
    (crateRun db fuel entry).worklist = [] ∧
      (crateRun db fuel entry).visited.Nodup ∧
      (∀ x, x ∈ (crateRun db fuel entry).visited ↔ Reaches db entry x) ∧
      (crateRun db fuel entry).visited.length =
        {x | Reaches db entry x}.ncard ∧
      (collect_defs_crate db fuel entry).items.map (fun p => p.2.ast_node) =
        crateDecls db (crateRun db fuel entry).visited := by
  obtain ⟨hempty, hinv, hiff⟩ := crateRun_spec db U entry hU hentry fuel hfuel
  have hbound : (crateDecls db (crateRun db fuel entry).visited).length ≤
      2 ^ 32 :=
    le_trans (crateDecls_length_le db U _ hinv.vis_nodup hinv.vis_mem) hsum
  obtain ⟨hc, hitems⟩ := processFiles_spec db _ hbound
  have hreg : (collect_defs_crate db fuel entry).items =
      entriesFrom db 0 (crateDecls db (crateRun db fuel entry).visited) := by
    show (crateRun db fuel entry).resolver.def_map.items = _
    rw [hinv.resolver_eq]
    exact hitems
  refine ⟨hempty, hinv.vis_nodup, hiff, ?_, ?_⟩
  · have hset : {x | Reaches db entry x} =
        ((crateRun db fuel entry).visited.toFinset : Set FileId) := by
      ext x
      simp only [Set.mem_setOf_eq, Finset.mem_coe, List.mem_toFinset]
      exact (hiff x).symm
    rw [hset, Set.ncard_coe_Finset,
      List.toFinset_card_of_nodup hinv.vis_nodup]
  · rw [hreg, entriesFrom_map_ast]

/-- C1 witness: the two-file import cycle (file 0 imports file 1 and vice
versa) completes with both files visited once and both definitions
registered once. -/
theorem claim_C1_witness :
    (crateRun cycleDb 4 0).worklist = [] ∧
      (crateRun cycleDb 4 0).visited.Nodup ∧
      (∀ x, x ∈ (crateRun cycleDb 4 0).visited ↔ Reaches cycleDb 0 x) ∧
      (crateRun cycleDb 4 0).visited.length =
        {x | Reaches cycleDb 0 x}.ncard ∧
      (collect_defs_crate cycleDb 4 0).items.map (fun p => p.2.ast_node) =
        crateDecls cycleDb (crateRun cycleDb 4 0).visited :=
  claim_C1_cycle_safe_termination cycleDb {0, 1} 0 4
    (by intro a p f h
        simp only [cycleDb] at h
        by_cases h1 : p = aPath
        · rw [if_pos h1] at h
          injection h with h'
          subst h'
          decide
        · rw [if_neg h1] at h
          by_cases h2 : p = bPath
          · rw [if_pos h2] at h
            injection h with h'
            subst h'
            decide
          · rw [if_neg h2] at h
            exact absurd h (by simp))
    (by decide) (by decide) (by decide)

/-- C2: After any sufficiently fueled run over a finite import graph whose
total declaration count fits a `u32`, the registry has exactly one entry
per top-level function or struct declaration of the visited files (the
stored syntax nodes enumerate those declarations exactly, in order), its
keys are pairwise distinct, and the keys are exactly `0, 1, ..., n - 1`
for `n` such declarations. -/
theorem claim_C2_sequential_unique_def_ids (db : AnalyzerDb)
    (U : Finset FileId) (entry : FileId) (fuel : Nat) (hU : ResolvesInto db U)
    (hentry : entry ∈ U) (hfuel : fuelBound db U ≤ fuel)
    (hsum : ∑ f ∈ U, (declItems (db.ast f).items).length ≤ 2 ^ 32) :
    (collect_defs_crate db fuel entry).items.map Prod.fst =
        List.range (crateDecls db (crateRun db fuel entry).visited).length ∧
      ((collect_defs_crate db fuel entry).items.map Prod.fst).Nodup ∧
      (collect_defs_crate db fuel entry).items.length =
        (crateDecls db (crateRun db fuel entry).visited).length ∧
      (collect_defs_crate db fuel entry).items.map (fun p => p.2.ast_node) =
        crateDecls db (crateRun db fuel entry).visited := by
  obtain ⟨hempty, hinv, hiff⟩ := crateRun_spec db U entry hU hentry fuel hfuel
  have hbound : (crateDecls db (crateRun db fuel entry).visited).length ≤
      2 ^ 32 :=
    le_trans (crateDecls_length_le db U _ hinv.vis_nodup hinv.vis_mem) hsum
  obtain ⟨hc, hitems⟩ := processFiles_spec db _ hbound
  have hreg : (collect_defs_crate db fuel entry).items =
      entriesFrom db 0 (crateDecls db (crateRun db fuel entry).visited) := by
    show (crateRun db fuel entry).resolver.def_map.items = _
    rw [hinv.resolver_eq]
    exact hitems
  have hfst : (collect_defs_crate db fuel entry).items.map Prod.fst =
      List.range (crateDecls db (crateRun db fuel entry).visited).length := by
    rw [hreg, entriesFrom_map_fst, List.range_eq_range']
  refine ⟨hfst, ?_, ?_, ?_⟩
  · rw [hfst]
    exact List.nodup_range _
  · have := congrArg List.length hfst
    simpa using this
  · rw [hreg, entriesFrom_map_ast]

/-- C2 witness: the two-file example registers three declarations under
keys 0, 1, 2. -/
theorem claim_C2_witness :
    (collect_defs_crate exampleDb 4 0).items.map Prod.fst =
        List.range (crateDecls exampleDb (crateRun exampleDb 4 0).visited).length ∧
      ((collect_defs_crate exampleDb 4 0).items.map Prod.fst).Nodup ∧
      (collect_defs_crate exampleDb 4 0).items.length =
        (crateDecls exampleDb (crateRun exampleDb 4 0).visited).length ∧
      (collect_defs_crate exampleDb 4 0).items.map (fun p => p.2.ast_node) =
        crateDecls exampleDb (crateRun exampleDb 4 0).visited :=
  claim_C2_sequential_unique_def_ids exampleDb {0, 1} 0 4
    (by intro a p f h
        simp only [exampleDb] at h
        by_cases h1 : p = utilsPath
        · rw [if_pos h1] at h
          injection h with h'
          subst h'
          decide
        · rw [if_neg h1] at h
          exact absurd h (by simp))
    (by decide) (by decide) (by decide)

/-- C3: Walking a grouped import-tree (with arbitrary nesting inside the
members) enqueues exactly the concatenation of what each member
sub-specification would enqueue as an independent import, every member
being resolved relative to the same originating anchor file. -/
theorem claim_C3_group_flattening (db : AnalyzerDb) (anchor_file : FileId)
    (items : List UseTree) (worklist : List FileId) :
    discover_deps_in_tree db anchor_file (UseTree.group items) worklist =
      worklist ++
        (items.map fun t => discover_deps_in_tree db anchor_file t []).flatten := by
  simp only [discover_deps_in_tree]
  exact goList_flatten db anchor_file items worklist

/-- C4: The traversal never fails: with sufficient fuel it runs to
completion (the worklist drains and the registry is returned); an import
path on which `resolve_module` returns nothing enqueues nothing and raises
no error; and every declaration of every reachable (visited) file still
appears in the returned registry. -/
theorem claim_C4_infallible_lossy_edges (db : AnalyzerDb) (U : Finset FileId)
    (entry : FileId) (fuel : Nat) (hU : ResolvesInto db U) (hentry : entry ∈ U)
    (hfuel : fuelBound db U ≤ fuel)
    (hsum : ∑ f ∈ U, (declItems (db.ast f).items).length ≤ 2 ^ 32) :
    (crateRun db fuel entry).worklist = [] ∧
      (∀ (anchor : FileId) (p : ModPath) (wl : List FileId),
        db.resolve_module anchor p = none →
        discover_deps_in_tree db anchor (UseTree.simple p) wl = wl) ∧
      ∀ f ∈ (crateRun db fuel entry).visited,
        ∀ item ∈ (db.ast f).items, isDecl item = true →
        ∃ k e, (k, e) ∈ (collect_defs_crate db fuel entry).items ∧
          e.ast_node = item := by
  obtain ⟨hempty, hinv, hiff⟩ := crateRun_spec db U entry hU hentry fuel hfuel
  have hbound : (crateDecls db (crateRun db fuel entry).visited).length ≤
      2 ^ 32 :=
    le_trans (crateDecls_length_le db U _ hinv.vis_nodup hinv.vis_mem) hsum
  obtain ⟨hc, hitems⟩ := processFiles_spec db _ hbound
  have hreg : (collect_defs_crate db fuel entry).items =
      entriesFrom db 0 (crateDecls db (crateRun db fuel entry).visited) := by
    show (crateRun db fuel entry).resolver.def_map.items = _
    rw [hinv.resolver_eq]
    exact hitems
  refine ⟨hempty, ?_, ?_⟩
  · intro anchor p wl hnone
    simp [discover_deps_in_tree, hnone]
  · intro f hf item hitem hdecl
    have hmem : item ∈ crateDecls db (crateRun db fuel entry).visited := by
      simp only [crateDecls, List.mem_flatten]
      exact ⟨declItems (db.ast f).items, List.mem_map.mpr ⟨f, hf, rfl⟩,
        List.mem_filter.mpr ⟨hitem, hdecl⟩⟩
    obtain ⟨k, e, hke, he⟩ := entriesFrom_exists db _ 0 item hmem
    exact ⟨k, e, by rw [hreg]; exact hke, he⟩

/-- C4 witness: a database whose entry file has one unresolvable import
(`missing`) and one resolvable one (`utils`): the run completes, the dead
edge enqueues nothing, and the declarations of both visited files are in
the registry. -/
theorem claim_C4_witness :
    (crateRun lossyDb 4 0).worklist = [] ∧
      (∀ (anchor : FileId) (p : ModPath) (wl : List FileId),
        lossyDb.resolve_module anchor p = none →
        discover_deps_in_tree lossyDb anchor (UseTree.simple p) wl = wl) ∧
      ∀ f ∈ (crateRun lossyDb 4 0).visited,
        ∀ item ∈ (lossyDb.ast f).items, isDecl item = true →
        ∃ k e, (k, e) ∈ (collect_defs_crate lossyDb 4 0).items ∧
          e.ast_node = item :=
  claim_C4_infallible_lossy_edges lossyDb {0, 1} 0 4
    (by intro a p f h
        simp only [lossyDb] at h
        by_cases h1 : p = utilsPath
        · rw [if_pos h1] at h
          injection h with h'
          subst h'
          decide
        · rw [if_neg h1] at h
          exact absurd h (by simp))
    (by decide) (by decide) (by decide)

/-- C5: The wildcard import-tree walk enqueues nothing, passes no path to
`resolve_module`, and raises no error (the walk is total and the worklist
is returned unchanged for any database whatsoever). -/
theorem claim_C5_wildcard_noop (db : AnalyzerDb) (anchor_file : FileId)
    (worklist : List FileId) :
    discover_deps_in_tree db anchor_file UseTree.wildcard worklist =
        worklist ∧
      resolveCallsInTree UseTree.wildcard = [] :=
  ⟨rfl, rfl⟩

/-- C6: Under the intern contract (same text, same symbol; different text,
never a collision), two registry entries carry equal name symbols exactly
when the declarations they record have identical name text. -/
theorem claim_C6_symbol_identity (db : AnalyzerDb) (fuel : Nat)
    (entry : FileId)
    (hintern : ∀ s t : String, db.intern_string s = db.intern_string t ↔ s = t)
    (k1 k2 : DefId) (e1 e2 : ItemDef)
    (h1 : (k1, e1) ∈ (collect_defs_crate db fuel entry).items)
    (h2 : (k2, e2) ∈ (collect_defs_crate db fuel entry).items) :
    itemNameText e1.ast_node = itemNameText e2.ast_node ↔ e1.name = e2.name := by
  have hshape := crateLoop_entries_shape db fuel (crateInit entry)
    (by intro p hp
        simp [crateInit, Resolver.new, DefMap.new] at hp)
  have s1 := hshape (k1, e1) h1
  have s2 := hshape (k2, e2) h2
  rw [s1.2.2.1, s2.2.2.1]
  exact (hintern _ _).symm

/-- C6 witness: with the injective interner, the `main` and `Point` entries
of the example run have different name texts if and only if they have
different symbols. -/
theorem claim_C6_witness :
    itemNameText (⟨0, internInj "main", ItemKind.function,
        Item.function ⟨⟨"main"⟩⟩⟩ : ItemDef).ast_node =
      itemNameText (⟨1, internInj "Point", ItemKind.struct_,
        Item.struct_ ⟨⟨"Point"⟩⟩⟩ : ItemDef).ast_node ↔
    (⟨0, internInj "main", ItemKind.function,
        Item.function ⟨⟨"main"⟩⟩⟩ : ItemDef).name =
      (⟨1, internInj "Point", ItemKind.struct_,
        Item.struct_ ⟨⟨"Point"⟩⟩⟩ : ItemDef).name :=
  claim_C6_symbol_identity exampleDbInj 4 0 internInj_iff 0 1
    ⟨0, internInj "main", ItemKind.function, Item.function ⟨⟨"main"⟩⟩⟩
    ⟨1, internInj "Point", ItemKind.struct_, Item.struct_ ⟨⟨"Point"⟩⟩⟩
    (List.Mem.head _) (List.Mem.tail _ (List.Mem.head _))

/-- C7: Successive calls to `new_def_id` on one fresh allocator return the
strictly increasing sequence `0, 1, 2, ...`: within the `u32` range of the
counter, the `k`-th call returns exactly `DefId(k)`. -/
theorem claim_C7_allocator_sequence (k : Nat) (hk : k < 2 ^ 32) :
    nthDefId k = k ∧ ∀ j, j < k → nthDefId j < nthDefId k := by
  have hnth : ∀ i : Nat, nthDefId i = i % 2 ^ 32 := fun i => by
    simp only [nthDefId, DefIdAllocator.new_def_id]
    exact allocAfter_counter i
  constructor
  · rw [hnth k]
    exact Nat.mod_eq_of_lt hk
  · intro j hj
    rw [hnth j, hnth k, Nat.mod_eq_of_lt hk,
      Nat.mod_eq_of_lt (lt_trans hj hk)]
    exact hj

/-- C7 witness: the fourth call returns `DefId(3)` and the sequence is
increasing up to it. -/
theorem claim_C7_witness :
    nthDefId 3 = 3 ∧ ∀ j, j < 3 → nthDefId j < nthDefId 3 :=
  claim_C7_allocator_sequence 3 (by decide)

/-- C8: An import declaration never produces a registry entry and never
allocates a `DefId` (the collection step returns the resolver unchanged),
and a module with zero function/struct declarations leaves the whole
resolver — registry and allocator — unchanged. -/
theorem claim_C8_use_skipped (db : AnalyzerDb) (r : Resolver) :
    (∀ use_stmt : UseStmt, collectItem db r (Item.use_ use_stmt) = r) ∧
      ∀ module_ast : Module, declItems module_ast.items = [] →
        collect_defs_in_module db r module_ast = r := by
  constructor
  · intro use_stmt
    rfl
  · intro module_ast h
    exact foldl_collect_no_decls db module_ast.items r h

/-- C8 witness: a module consisting of one import declaration contributes
nothing. -/
theorem claim_C8_witness :
    collectItem exampleDb Resolver.new
        (Item.use_ ⟨UseTree.simple utilsPath⟩) = Resolver.new ∧
      collect_defs_in_module exampleDb Resolver.new
        ⟨[Item.use_ ⟨UseTree.simple utilsPath⟩]⟩ = Resolver.new :=
  ⟨(claim_C8_use_skipped exampleDb Resolver.new).1 ⟨UseTree.simple utilsPath⟩,
    (claim_C8_use_skipped exampleDb Resolver.new).2
      ⟨[Item.use_ ⟨UseTree.simple utilsPath⟩]⟩ rfl⟩

/-- C9: On the concrete two-file example (entry imports `utils` and
declares `fun main`; `utils` declares `struct Point` and `fun helper`) the
traversal completes and returns a registry of exactly 3 entries whose name
symbols look up to `main`, `Point`, `helper` with kinds Function, Struct,
Function respectively. -/
theorem claim_C9_example_run :
    (crateRun exampleDb 4 0).worklist = [] ∧
      (collect_defs_crate exampleDb 4 0).items.length = 3 ∧
      ((collect_defs_crate exampleDb 4 0).items.map fun p =>
        (exLookup p.2.name, p.2.kind)) =
        [("main", ItemKind.function), ("Point", ItemKind.struct_),
          ("helper", ItemKind.function)] :=
  ⟨rfl, rfl, rfl⟩

/-- C10: Every registry entry stores (by value) a top-level item of the
fetched syntax tree of some visited file, and its kind tag is `Function`
exactly when that item is a function declaration and `Struct` exactly when
it is a struct declaration. -/
theorem claim_C10_ast_node_fidelity (db : AnalyzerDb) (fuel : Nat)
    (entry : FileId) (k : DefId) (e : ItemDef)
    (h : (k, e) ∈ (collect_defs_crate db fuel entry).items) :
    (∃ f ∈ (crateRun db fuel entry).visited,
        e.ast_node ∈ (db.ast f).items) ∧
      (e.kind = ItemKind.function ↔
        ∃ func_def, e.ast_node = Item.function func_def) ∧
      (e.kind = ItemKind.struct_ ↔
        ∃ struct_def, e.ast_node = Item.struct_ struct_def) := by
  obtain ⟨hex, hdecl, hname, hkind⟩ := crateLoop_entries_shape db fuel
    (crateInit entry)
    (by intro p hp
        simp [crateInit, Resolver.new, DefMap.new] at hp)
    (k, e) h
  refine ⟨hex, ?_, ?_⟩
  · cases hast : e.ast_node with
    | function func_def =>
      rw [hast] at hkind
      exact ⟨fun _ => ⟨func_def, rfl⟩, fun _ => hkind⟩
    | struct_ struct_def =>
      rw [hast] at hkind
      constructor
      · intro hk'
        rw [hkind] at hk'
        exact absurd hk' (by simp [itemKindOf])
      · rintro ⟨fd, hfd⟩
        exact absurd hfd (by simp)
    | use_ use_stmt =>
      rw [hast] at hdecl
      exact absurd hdecl (by simp [isDecl])
  · cases hast : e.ast_node with
    | function func_def =>
      rw [hast] at hkind
      constructor
      · intro hk'
        rw [hkind] at hk'
        exact absurd hk' (by simp [itemKindOf])
      · rintro ⟨sd, hsd⟩
        exact absurd hsd (by simp)
    | struct_ struct_def =>
      rw [hast] at hkind
      exact ⟨fun _ => ⟨struct_def, rfl⟩, fun _ => hkind⟩
    | use_ use_stmt =>
      rw [hast] at hdecl
      exact absurd hdecl (by simp [isDecl])

/-- C10 witness: the first entry of the example run stores the `main`
function item of the entry file's tree, with kind Function. -/
theorem claim_C10_witness :
    (∃ f ∈ (crateRun exampleDb 4 0).visited,
        (⟨0, exIntern "main", ItemKind.function,
          Item.function ⟨⟨"main"⟩⟩⟩ : ItemDef).ast_node ∈
          (exampleDb.ast f).items) ∧
      ((⟨0, exIntern "main", ItemKind.function,
          Item.function ⟨⟨"main"⟩⟩⟩ : ItemDef).kind = ItemKind.function ↔
        ∃ func_def, (⟨0, exIntern "main", ItemKind.function,
          Item.function ⟨⟨"main"⟩⟩⟩ : ItemDef).ast_node =
            Item.function func_def) ∧
      ((⟨0, exIntern "main", ItemKind.function,
          Item.function ⟨⟨"main"⟩⟩⟩ : ItemDef).kind = ItemKind.struct_ ↔
        ∃ struct_def, (⟨0, exIntern "main", ItemKind.function,
          Item.function ⟨⟨"main"⟩⟩⟩ : ItemDef).ast_node =
            Item.struct_ struct_def) :=
  claim_C10_ast_node_fidelity exampleDb 4 0 0
    ⟨0, exIntern "main", ItemKind.function, Item.function ⟨⟨"main"⟩⟩⟩
    (List.Mem.head _)

end Nyanc
